import Mathlib

/-!
Verification of the feature-embedding and similarity-retrieval core of the
codewiz repository (src/src/models/code_embeddings.py, class CodeEmbedder).

The Python abstract syntax tree is embedded shallowly: a node is a kind
together with its list of children.  The extractor only ever inspects node
kinds (isinstance checks), so child order and kinds are all that is modelled.
Document vectors are term-count vectors over the fitted vocabulary (naturals;
the tf-idf weighting of the source is a numeric detail none of the settled
claims depend on), quality scores are rationals, and the cosine-similarity
facts are settled over the reals.  The similarity function used by
find_similar_functions is a parameter, since every structural claim holds for
an arbitrary similarity function, and the numeric claims are settled against
the real-valued cosine defined below.
-/

/-- Kinds of Python AST nodes distinguished by the extractor, mirroring the
isinstance checks in code_embeddings.py.  Every other node kind behaves
identically there and is collapsed into the catch-all kind. -/
inductive NodeKind where
  | call
  | assign
  | augAssign
  | compare
  | binOp
  | subscript
  | ifStmt
  | forStmt
  | whileStmt
  | ret
  | funcDef
  | other
deriving DecidableEq, Repr

/-- A Python AST node: a kind plus its children, in source order. -/
inductive PyNode where
  | mk (kind : NodeKind) (children : List PyNode)

/-- A declared parameter of a function (its identifier). -/
structure PyArg where
  name : String
deriving DecidableEq, Repr

/-- The arguments object of a FunctionDef node: the positional-or-keyword
parameter list (args.args in Python) and the optional variadic and
keyword-variadic parameters. -/
structure PyArguments where
  args : List PyArg
  vararg : Option PyArg
  kwarg : Option PyArg
deriving DecidableEq, Repr

/-- A Python FunctionDef node as consumed by CodeEmbedder: its name, its
arguments object and its body statements. -/
structure FunctionDef where
  name : String
  args : PyArguments
  body : List PyNode

/-- Pointwise append of two level decompositions: level i of the result is
the concatenation of level i of each input. -/
def zipAppend : List (List NodeKind) → List (List NodeKind) → List (List NodeKind)
  | [], ys => ys
  | xs, [] => xs
  | x :: xs, y :: ys => (x ++ y) :: zipAppend xs ys

mutual
/-- Kinds of the nodes of a subtree, grouped by depth (level 0 is the root). -/
def nodeLevels : PyNode → List (List NodeKind)
  | .mk k cs => [k] :: forestLevels cs
/-- Kinds of the nodes of a forest grouped by depth, siblings in order. -/
def forestLevels : List PyNode → List (List NodeKind)
  | [] => []
  | n :: rest => zipAppend (nodeLevels n) (forestLevels rest)
end

/-- The kinds of the nodes yielded by ast.walk(n), in order.  ast.walk is a
breadth-first (queue based) traversal, so its order is exactly level order. -/
def walkKinds (n : PyNode) : List NodeKind :=
  (nodeLevels n).flatten

mutual
/-- Kinds of the nodes of a subtree in depth-first preorder. -/
def dfsNode : PyNode → List NodeKind
  | .mk k cs => k :: dfsForest cs
/-- Kinds of the nodes of a forest in depth-first preorder. -/
def dfsForest : List PyNode → List NodeKind
  | [] => []
  | n :: rest => dfsNode n ++ dfsForest rest
end

/-- The AST node of a FunctionDef, as walked by the extractor.  Only the body
subtree can contain the kinds the extractor reacts to (the parameter nodes of
the real AST are arg nodes, which match none of the isinstance checks), so the
embedding gives the FunctionDef node its body as children. -/
def FunctionDef.toNode (f : FunctionDef) : PyNode :=
  .mk .funcDef f.body

/-- The operation tag recorded for a node kind by _extract_operations, if any:
the six isinstance checks of code_embeddings.py lines 52-63. -/
def opTag : NodeKind → Option String
  | .call => some "operation_call"
  | .assign => some "operation_assign"
  | .augAssign => some "operation_aug_assign"
  | .compare => some "operation_compare"
  | .binOp => some "operation_math"
  | .subscript => some "operation_subscript"
  | _ => none

/-- First-seen deduplicated operation tags of a kind sequence, skipping tags
already seen. -/
def firstSeenAux (seen : List String) : List NodeKind → List String
  | [] => []
  | k :: rest =>
    match opTag k with
    | none => firstSeenAux seen rest
    | some t => if t ∈ seen then firstSeenAux seen rest
                else t :: firstSeenAux (t :: seen) rest

/-- CodeEmbedder._extract_operations.  The source accumulates the six tags in
a Python set over ast.walk(node) and returns list(set); a Python set records
presence only and its iteration order is unspecified (it depends on the
process hash seed).  This definition fixes one realization, the first-seen
order along the walk; the predicate opsOutput below captures that the code may
emit the elements of this set in an arbitrary order. -/
def _extract_operations (n : PyNode) : List String :=
  firstSeenAux [] (walkKinds n)

/-- The possible return values of _extract_operations for a node: any
enumeration of the set of tags present, since Python set iteration order is
unspecified. -/
def opsOutput (n : PyNode) (l : List String) : Prop :=
  l.Perm (_extract_operations n)

/-- The operation tags in first-seen order of a depth-first traversal of the
node, as the specification describes the operations channel.  Modelled from
the spec: the source itself traverses breadth-first and returns an unordered
set. -/
def dfsFirstSeen (n : PyNode) : List String :=
  firstSeenAux [] (dfsNode n)

/-- CodeEmbedder._extract_complexity_features: counts If, For and While nodes
over ast.walk and emits the two threshold flags. -/
def _extract_complexity_features (n : PyNode) : List String :=
  let ks := walkKinds n
  let if_counts := ks.count .ifStmt
  let for_counts := ks.count .forStmt
  let while_counts := ks.count .whileStmt
  (if if_counts > 3 then ["High_conditional_complexity"] else []) ++
    (if for_counts + while_counts > 2 then ["High_loop_complexity"] else [])

/-- CodeEmbedder._extract_return_pattern: classifies by the number of Return
nodes in ast.walk. -/
def _extract_return_pattern (n : PyNode) : String :=
  let return_count := (walkKinds n).count .ret
  if return_count = 0 then "return_none"
  else if return_count = 1 then "return_single"
  else "return_multiple"

/-- CodeEmbedder.extract_code_features.  The source space-joins the token
list into one string and the vectorizer splits it back into tokens; since no
token contains a space the embedding keeps the token list as the canonical
feature representation, and joinFeatures below recovers the joined string. -/
def extract_code_features (f : FunctionDef) : List String :=
  ["func_" ++ f.name, "args_" ++ toString f.args.args.length] ++
    _extract_operations f.toNode ++
    _extract_complexity_features f.toNode ++
    [_extract_return_pattern f.toNode]

/-- The feature string stored in the database: the space-join of the feature
tokens (line 47 of the source). -/
def joinFeatures (feats : List String) : String :=
  String.intercalate " " feats

/-- A stand-in for the truncated md5 hex digest of line 111.  The claims use
only that the digest is a fixed deterministic function of the feature string,
never any property of md5 itself, so the digest is modelled as a simple
deterministic string digest. -/
def md5hex8 (s : String) : String :=
  "h" ++ toString (s.data.foldl (fun a c => (a * 131 + c.toNat) % 4294967296) 7)

/-- A record of function_database: the entry stored by
add_function_to_database (lines 113-118). -/
structure FRecord where
  features : List String
  quality_score : ℚ
  name : String
  node : FunctionDef

/-- The CodeEmbedder state.  function_database is a Python dict, hence an
insertion-ordered association list with distinct keys.  embedding_vectors and
is_fitted are instance attributes first assigned inside fit_embeddings, so on
a fresh object they do not exist: they are modelled as Option fields that are
none until fit assigns them, and reading none raises AttributeError.  The
vocabulary field models the fitted state of the TfidfVectorizer (none while
the vectorizer is unfitted; transform on an unfitted vectorizer raises
sklearn NotFittedError). -/
structure CodeEmbedder where
  function_database : List (String × FRecord)
  vocabulary : Option (List String)
  embedding_vectors : Option (List (List ℕ))
  is_fitted : Option Bool

deriving instance DecidableEq for Except

/-- The Python exceptions the modelled code can raise. -/
inductive PyErr where
  | attributeError
  | notFittedError
  | indexError
  | keyError
  | nameError
deriving DecidableEq, Repr

/-- A match returned by find_similar_functions (lines 159-165). -/
structure SimMatch (α : Type) where
  function_id : String
  name : String
  similarity : α
  quality_score : ℚ
  features : List String
deriving DecidableEq, Repr

/-- A fresh CodeEmbedder as built by __init__ (lines 12-18): an empty
database, an unfitted vectorizer, and no embedding_vectors or is_fitted
attribute at all. -/
def newCodeEmbedder : CodeEmbedder :=
  { function_database := []
    vocabulary := none
    embedding_vectors := none
    is_fitted := none }

/-- Assignment dict[k] = v on an insertion-ordered dict: overwrite in place
when the key exists, else append. -/
def dictInsert (d : List (String × FRecord)) (k : String) (v : FRecord) :
    List (String × FRecord) :=
  if d.any (fun p => p.1 == k) then
    d.map (fun p => if p.1 == k then (k, v) else p)
  else d ++ [(k, v)]

/-- Lookup dict[k] on an insertion-ordered dict. -/
def dictGet (d : List (String × FRecord)) (k : String) : Option FRecord :=
  (d.find? (fun p => p.1 == k)).map (fun p => p.2)

/-- CodeEmbedder.add_function_to_database (lines 105-119): extract features,
derive the id from the name and the digest of the joined feature string,
store the record and return the id.  The source default for quality_score is
1.0; the embedding passes it explicitly. -/
def add_function_to_database (s : CodeEmbedder) (f : FunctionDef) (q : ℚ) :
    String × CodeEmbedder :=
  let features := extract_code_features f
  let function_id := f.name ++ "_" ++ md5hex8 (joinFeatures features)
  let rec0 : FRecord := ⟨features, q, f.name, f⟩
  (function_id,
    { s with function_database :=
        dictInsert s.function_database function_id rec0 })

/-- The fitted vocabulary over a corpus snapshot: the distinct tokens of the
documents.  This models the TfidfVectorizer vocabulary; its stop-word
filtering, bigram extraction and max_features cap are weighting details no
claim settled here depends on. -/
def buildVocab (docs : List (List String)) : List String :=
  docs.flatten.dedup

/-- Projection of a token list into the fitted vocabulary space: one
coordinate per vocabulary term, counting occurrences; tokens outside the
vocabulary are dropped.  This models the vectorizer transform; the claims
settled against it do not depend on the tf-idf weighting. -/
def toVector (vocab : List String) (feats : List String) : List ℕ :=
  vocab.map (fun t => feats.count t)

/-- CodeEmbedder.fit_embeddings (lines 121-135): a no-op (with a printed
diagnostic, not modelled) on an empty database; otherwise fits the vectorizer
over the feature strings of the database in insertion order and assigns
embedding_vectors and is_fitted. -/
def fit_embeddings (s : CodeEmbedder) : CodeEmbedder :=
  if s.function_database.isEmpty then s
  else
    let docs := s.function_database.map (fun p => p.2.features)
    let vocab := buildVocab docs
    { s with
      vocabulary := some vocab
      embedding_vectors := some (docs.map (toVector vocab))
      is_fitted := some true }

/-- The ascending lexicographic order on (index, value) pairs used to model
numpy argsort: by value, ties by index. -/
def pairLe {α : Type} [LinearOrder α] (p q : ℕ × α) : Prop :=
  p.2 < q.2 ∨ (p.2 = q.2 ∧ p.1 ≤ q.1)

instance {α : Type} [LinearOrder α] : DecidableRel (pairLe (α := α)) :=
  fun p q =>
    decidable_of_iff (p.2 < q.2 ∨ (p.2 = q.2 ∧ p.1 ≤ q.1)) Iff.rfl

/-- numpy argsort of a similarity row: the indices sorted by value
ascending.  numpy leaves the order of equal values unspecified; on the short
arrays of this code its introsort is an insertion sort, which is stable, and
the embedding fixes that stable realization (ties by ascending index). -/
def argsortAsc {α : Type} [LinearOrder α] (sims : List α) : List ℕ :=
  (List.insertionSort pairLe sims.enum).map Prod.fst

/-- The Python slice xs[-k:]: the last k elements, with the Python quirk that
-0 is 0 so k = 0 yields the whole list. -/
def takeLastPy {β : Type} (l : List β) (k : ℕ) : List β :=
  if k = 0 then l else l.drop (l.length - k)

/-- similarities[0].argsort()[-top_k:][::-1] (line 151): the top-k row
indices, best first. -/
def similarIndices {α : Type} [LinearOrder α] (sims : List α) (top_k : ℕ) :
    List ℕ :=
  (takeLastPy (argsortAsc sims) top_k).reverse

/-- The similarity row computed at line 148: the similarity of the query
vector against every fitted matrix row. -/
def simsRow {α : Type} (sim : List ℕ → List ℕ → α) (vocab : List String)
    (mat : List (List ℕ)) (target : FunctionDef) : List α :=
  mat.map (fun row => sim (toVector vocab (extract_code_features target)) row)

/-- The loop of lines 155-157: for each index in order, look the id up in the
current key list and the record up in the database, leaving the loop
variables bound to the values of the last iteration.  Returns the final
bindings, none when the loop body never ran, or the Python exception the
first failing lookup raises. -/
def loopLast (ids : List String) (db : List (String × FRecord)) :
    List ℕ → Except PyErr (Option (ℕ × String × FRecord))
  | [] => .ok none
  | idx :: rest =>
    match ids[idx]? with
    | none => .error .indexError
    | some function_id =>
      match dictGet db function_id with
      | none => .error .keyError
      | some function_data =>
        match loopLast ids db rest with
        | .ok none => .ok (some (idx, function_id, function_data))
        | out => out

/-- CodeEmbedder.find_similar_functions (lines 137-167).  The similarity
function (sklearn cosine_similarity in the source) is a parameter: the
structural claims hold for every similarity function, and the numeric claims
are settled against the real-valued cosine below.  Faithful to the source,
the single results.append sits after the loop (lines 159-165), so the
returned list is built only from the loop variables left over from the last
iteration. -/
def find_similar_functions {α : Type} [LinearOrder α]
    (sim : List ℕ → List ℕ → α) (s : CodeEmbedder) (target : FunctionDef)
    (top_k : ℕ) : Except PyErr (List (SimMatch α)) :=
  match s.is_fitted with
  | none => .error .attributeError
  | some false => .ok []
  | some true =>
    match s.vocabulary with
    | none => .error .notFittedError
    | some vocab =>
      match s.embedding_vectors with
      | none => .error .attributeError
      | some mat =>
        let sims := simsRow sim vocab mat target
        let similar_indices := similarIndices sims top_k
        let function_ids := s.function_database.map (fun p => p.1)
        match loopLast function_ids s.function_database similar_indices with
        | .error e => .error e
        | .ok none => .error .nameError
        | .ok (some (idx, function_id, function_data)) =>
          match sims[idx]? with
          | none => .error .indexError
          | some sv =>
            .ok [{ function_id := function_id
                   name := function_data.name
                   similarity := sv
                   quality_score := function_data.quality_score
                   features := function_data.features }]

/-- A sample similarity function used for concrete evaluations: the dot
product of the two count vectors. -/
def dotN (a b : List ℕ) : ℕ :=
  ((a.zip b).map (fun p => p.1 * p.2)).sum


/-- The real dot product of two vectors, over the common index range. -/
noncomputable def dotR (a b : List ℝ) : ℝ :=
  ∑ i ∈ Finset.range (min a.length b.length), a.getD i 0 * b.getD i 0

/-- The cosine similarity of two real vectors, as computed by
sklearn.metrics.pairwise.cosine_similarity: the dot product divided by the
product of the Euclidean norms (by the Lean convention a division by a zero
norm yields 0, matching the library convention that a zero vector has zero
similarity to everything). -/
noncomputable def cosine_similarity (a b : List ℝ) : ℝ :=
  dotR a b / (Real.sqrt (dotR a a) * Real.sqrt (dotR b b))

/-- A count vector cast to the reals. -/
def natVec (v : List ℕ) : List ℝ :=
  v.map (fun n => (n : ℝ))

/-- Cosine similarity on count vectors: the instantiation of the similarity
parameter of find_similar_functions that models the source exactly. -/
noncomputable def cosSimN (a b : List ℕ) : ℝ :=
  cosine_similarity (natVec a) (natVec b)

/-- A sample function node: def f(): pass. -/
def sampleF : FunctionDef := ⟨"f", ⟨[], none, none⟩, []⟩

/-- A sample function node: def g(): pass. -/
def sampleG : FunctionDef := ⟨"g", ⟨[], none, none⟩, []⟩

/-- A sample query function node: def h(): pass. -/
def sampleH : FunctionDef := ⟨"h", ⟨[], none, none⟩, []⟩

/-- A corpus of one record, not yet fitted. -/
def preFitState : CodeEmbedder :=
  (add_function_to_database newCodeEmbedder sampleF 1).2

/-- A fitted corpus of two records, the failing input of claim C1. -/
def c1State : CodeEmbedder :=
  fit_embeddings
    (add_function_to_database
      (add_function_to_database newCodeEmbedder sampleF 1).2 sampleG 1).2

/-- A function body whose breadth-first walk meets an assignment before a
call while a depth-first walk meets the call first: the body is a statement
wrapping a call, followed by an assignment. -/
def c4Node : PyNode :=
  .mk .funcDef [.mk .other [.mk .call []], .mk .assign []]

/-- A function with one positional parameter and a variadic parameter:
def g(a, *rest): pass. -/
def c5Node : FunctionDef := ⟨"g", ⟨[⟨"a"⟩], some ⟨"rest"⟩, none⟩, []⟩

/-- A handcrafted fitted state with a single one-dimensional row, used to
instantiate the hypotheses of the fitted-query theorems. -/
def oneRowState : CodeEmbedder :=
  { function_database := [("a", ⟨["x"], 1, "a", sampleF⟩)]
    vocabulary := some ["x"]
    embedding_vectors := some [[1]]
    is_fitted := some true }

/-- Inserting the same key-value pair twice is the same as inserting it
once. -/
theorem dictInsert_idem (d : List (String × FRecord)) (k : String) (v : FRecord) :
    dictInsert (dictInsert d k v) k v = dictInsert d k v := by
  unfold dictInsert
  by_cases h : d.any (fun p => p.1 == k) = true
  · have hmem : (d.map (fun p => if p.1 == k then (k, v) else p)).any
        (fun p => p.1 == k) = true := by
      rcases List.any_eq_true.mp h with ⟨p, hp, hpk⟩
      exact List.any_eq_true.mpr
        ⟨(k, v), List.mem_map.mpr ⟨p, hp, by simp [hpk]⟩, by simp⟩
    simp only [h, if_true, hmem, List.map_map]
    refine List.map_congr_left ?_
    intro p _
    by_cases hpk : p.1 == k
    · simp [Function.comp, hpk]
    · simp [Function.comp, hpk]
  · have h' : d.any (fun p => p.1 == k) = false := by
      exact Bool.not_eq_true _ ▸ Bool.of_not_eq_true h
    have hall := List.any_eq_false.mp h'
    have hmem : (d ++ [(k, v)]).any (fun p => p.1 == k) = true := by
      simp [List.any_append]
    have hfix : d.map (fun p => if p.1 == k then (k, v) else p) = d := by
      have hid : ∀ p ∈ d, (if p.1 == k then (k, v) else p) = id p := by
        intro p hp
        simp [hall p hp]
      rw [List.map_congr_left hid, List.map_id]
    simp only [h', if_false, Bool.false_eq_true, hmem, if_true, List.map_append]
    rw [hfix]
    simp

/-- dictInsert never shrinks the dict. -/
theorem dictInsert_length_ge (d : List (String × FRecord)) (k : String)
    (v : FRecord) : d.length ≤ (dictInsert d k v).length := by
  unfold dictInsert
  by_cases h : d.any (fun p => p.1 == k) = true
  · simp [h]
  · have h' : d.any (fun p => p.1 == k) = false := by
      exact Bool.not_eq_true _ ▸ Bool.of_not_eq_true h
    simp [h']

/-- dictInsert leaves the keys at existing positions unchanged. -/
theorem dictInsert_keys_at (d : List (String × FRecord)) (k : String)
    (v : FRecord) (i : ℕ) (hi : i < d.length) :
    ((dictInsert d k v).map Prod.fst)[i]? = (d.map Prod.fst)[i]? := by
  unfold dictInsert
  by_cases h : d.any (fun p => p.1 == k) = true
  · simp only [h, if_true, List.map_map]
    have : d.map (Prod.fst ∘ fun p => if p.1 == k then (k, v) else p) =
        d.map Prod.fst := by
      refine List.map_congr_left ?_
      intro p _
      by_cases hpk : p.1 == k
      · have : p.1 = k := by simpa using hpk
        simp [Function.comp, hpk, this]
      · simp [Function.comp, hpk]
    rw [this]
  · have h' : d.any (fun p => p.1 == k) = false := by
      exact Bool.not_eq_true _ ▸ Bool.of_not_eq_true h
    simp only [h', Bool.false_eq_true, if_false, List.map_append]
    exact List.getElem?_append_left (by simpa using hi)

/-- A key present among the keys of a dict is found by lookup. -/
theorem dictGet_mem (d : List (String × FRecord)) (k : String)
    (h : k ∈ d.map Prod.fst) : ∃ r, dictGet d k = some r := by
  induction d with
  | nil => simp at h
  | cons p rest ih =>
    by_cases hpk : p.1 == k
    · exact ⟨p.2, by simp [dictGet, List.find?, hpk]⟩
    · have : k ∈ rest.map Prod.fst := by
        rcases List.mem_map.mp h with ⟨q, hq, hqk⟩
        rcases List.mem_cons.mp hq with rfl | hq'
        · exact absurd (by simp [hqk]) hpk
        · exact List.mem_map.mpr ⟨q, hq', hqk⟩
      rcases ih this with ⟨r, hr⟩
      refine ⟨r, ?_⟩
      simp only [dictGet, List.find?, hpk] at hr ⊢
      exact hr

/-- firstSeenAux emits no duplicates and nothing already seen. -/
theorem firstSeenAux_nodup (ks : List NodeKind) :
    ∀ seen : List String,
      (firstSeenAux seen ks).Nodup ∧ ∀ t ∈ firstSeenAux seen ks, t ∉ seen := by
  induction ks with
  | nil => intro seen; simp [firstSeenAux]
  | cons k rest ih =>
    intro seen
    cases hk : opTag k with
    | none => simpa [firstSeenAux, hk] using ih seen
    | some u =>
      by_cases hu : u ∈ seen
      · simpa [firstSeenAux, hk, hu] using ih seen
      · have h1 := ih (u :: seen)
        have hres : firstSeenAux seen (k :: rest) =
            u :: firstSeenAux (u :: seen) rest := by
          simp [firstSeenAux, hk, hu]
        rw [hres]
        constructor
        · refine List.nodup_cons.mpr ⟨?_, h1.1⟩
          intro hmem
          exact (h1.2 u hmem) (List.mem_cons_self u seen)
        · intro t ht
          rcases List.mem_cons.mp ht with rfl | hmem
          · exact hu
          · intro hseen
            exact (h1.2 t hmem) (List.mem_cons_of_mem _ hseen)

/-- Membership in firstSeenAux: exactly the unseen tags of the kinds. -/
theorem firstSeenAux_mem (ks : List NodeKind) :
    ∀ (seen : List String) (t : String),
      t ∈ firstSeenAux seen ks ↔
        t ∉ seen ∧ ∃ k ∈ ks, opTag k = some t := by
  induction ks with
  | nil => intro seen t; simp [firstSeenAux]
  | cons k rest ih =>
    intro seen t
    cases hk : opTag k with
    | none =>
      have hres : firstSeenAux seen (k :: rest) = firstSeenAux seen rest := by
        simp [firstSeenAux, hk]
      rw [hres, ih]
      constructor
      · rintro ⟨hs, k', hk', ht⟩
        exact ⟨hs, k', List.mem_cons_of_mem _ hk', ht⟩
      · rintro ⟨hs, k', hk', ht⟩
        rcases List.mem_cons.mp hk' with rfl | hmem
        · rw [hk] at ht; cases ht
        · exact ⟨hs, k', hmem, ht⟩
    | some u =>
      by_cases hu : u ∈ seen
      · have hres : firstSeenAux seen (k :: rest) = firstSeenAux seen rest := by
          simp [firstSeenAux, hk, hu]
        rw [hres, ih]
        constructor
        · rintro ⟨hs, k', hk', ht⟩
          exact ⟨hs, k', List.mem_cons_of_mem _ hk', ht⟩
        · rintro ⟨hs, k', hk', ht⟩
          rcases List.mem_cons.mp hk' with rfl | hmem
          · rw [hk] at ht
            injection ht with ht'
            exact absurd (ht' ▸ hu) hs
          · exact ⟨hs, k', hmem, ht⟩
      · have hres : firstSeenAux seen (k :: rest) =
            u :: firstSeenAux (u :: seen) rest := by
          simp [firstSeenAux, hk, hu]
        rw [hres]
        constructor
        · intro ht
          rcases List.mem_cons.mp ht with rfl | hmem
          · exact ⟨hu, k, List.mem_cons_self _ _, hk⟩
          · rcases (ih (u :: seen) t).mp hmem with ⟨hs, k', hk', ht'⟩
            exact ⟨fun hsn => hs (List.mem_cons_of_mem _ hsn), k',
              List.mem_cons_of_mem _ hk', ht'⟩
        · rintro ⟨hs, k', hk', ht'⟩
          rcases List.mem_cons.mp hk' with rfl | hmem
          · rw [hk] at ht'
            injection ht' with ht''
            exact ht'' ▸ List.mem_cons_self _ _
          · by_cases htu : t = u
            · exact htu ▸ List.mem_cons_self _ _
            · refine List.mem_cons_of_mem _ ((ih (u :: seen) t).mpr ?_)
              refine ⟨?_, k', hmem, ht'⟩
              intro hmem'
              rcases List.mem_cons.mp hmem' with rfl | hsn
              · exact htu rfl
              · exact hs hsn

/-- C2: on a fresh CodeEmbedder, on which fit_embeddings has never been
called, find_similar_functions reads self.is_fitted, an attribute that
__init__ (lines 12-18) never assigns, so the call raises AttributeError and
the exception escapes to the caller.  This contradicts the claim that the
failure is surfaced as an empty result plus a diagnostic with no escaping
exception: the guard at line 141 was clearly meant to do that, but is_fitted
is only ever assigned inside fit_embeddings, so the guard itself crashes. -/
theorem c2_fresh_embedder_attribute_error {α : Type} [LinearOrder α]
    (sim : List ℕ → List ℕ → α) (f : FunctionDef) (k : ℕ) :
    find_similar_functions sim newCodeEmbedder f k =
      .error .attributeError := rfl

/-- C8: fit_embeddings on a state whose function database is empty is a
no-op (lines 125-127): the whole state, including any previously fitted
vocabulary, matrix and is_fitted flag, is left exactly as it was, and in
particular a never-fitted model remains unfitted. -/
theorem c8_fit_empty_noop (s : CodeEmbedder)
    (h : s.function_database = []) : fit_embeddings s = s := by
  simp [fit_embeddings, h]

/-- Witness for C8 at the fresh embedder. -/
theorem c8_fit_empty_witness :
    newCodeEmbedder.function_database = [] ∧
    fit_embeddings newCodeEmbedder = newCodeEmbedder :=
  ⟨rfl, c8_fit_empty_noop newCodeEmbedder rfl⟩

/-- C7: feature extraction is a pure function of the node, the id returned
by add_function_to_database depends only on the node and not on the prior
state (it is derived from the name and the digest of the joined feature
sequence), and repeating the same add returns the same id and leaves the
database unchanged. -/
theorem c7_extract_add_deterministic (s s' : CodeEmbedder)
    (f : FunctionDef) (q : ℚ) :
    extract_code_features f = extract_code_features f ∧
    (add_function_to_database s f q).1 = (add_function_to_database s' f q).1 ∧
    (add_function_to_database (add_function_to_database s f q).2 f q).1 =
      (add_function_to_database s f q).1 ∧
    (add_function_to_database (add_function_to_database s f q).2 f q).2 =
      (add_function_to_database s f q).2 := by
  refine ⟨rfl, rfl, rfl, ?_⟩
  simp [add_function_to_database, dictInsert_idem]

/-- C5 counterexample: for def g(a, *rest): pass, the emitted feature
sequence is exactly [func_g, args_1, return_none]: the variadic parameter
rest is not counted in args_1, but contrary to the claim no separate named
token for it is appended either — lines 31-33 emit only the two signature
tokens. -/
theorem c5_vararg_emits_no_token :
    extract_code_features c5Node = ["func_g", "args_1", "return_none"] ∧
    ¬ ∃ t ∈ extract_code_features c5Node,
        t ≠ "func_g" ∧ t ≠ "args_1" ∧ t ≠ "return_none" := by decide

/-- C5 (amended): the signature channel emits exactly func_(name) and
args_(n) with n the number of declared positional parameters (args.args);
variadic and keyword-variadic parameters are neither counted in n nor
emitted as tokens of their own — the extractor output is entirely
independent of them. -/
theorem c5_signature_channel (f : FunctionDef) :
    (extract_code_features f).take 2 =
      ["func_" ++ f.name, "args_" ++ toString f.args.args.length] ∧
    ∀ va kw : Option PyArg,
      extract_code_features ⟨f.name, ⟨f.args.args, va, kw⟩, f.body⟩ =
        extract_code_features f :=
  ⟨rfl, fun _ _ => rfl⟩

/-- C1: on a fitted corpus of two records, find_similar_functions with
top_k = 3 returns a single match, not min(top_k, fitted_row_count) = 2
matches: the results.append at lines 159-165 sits outside the loop over the
top-k indices, so only the last-iterated candidate survives.  The claimed
length contract holds only by accident on one-record corpora. -/
theorem c1_find_similar_returns_one_not_min :
    (find_similar_functions dotN c1State sampleH 3).map List.length =
      .ok 1 ∧
    c1State.embedding_vectors.map List.length = some 2 := by decide

/-- C4 counterexample: for a body whose breadth-first walk (ast.walk) meets
an assignment before the call nested one level deeper, the realized output
of _extract_operations is [operation_assign, operation_call], which is a
valid enumeration of the operation set but is not the first-seen order
[operation_call, operation_assign] of a depth-first traversal; so the
claimed depth-first first-seen emission order is false (and the order is in
general not even well-defined, being Python set iteration order). -/
theorem c4_order_not_dfs_first_seen :
    opsOutput c4Node (_extract_operations c4Node) ∧
    _extract_operations c4Node = ["operation_assign", "operation_call"] ∧
    dfsFirstSeen c4Node = ["operation_call", "operation_assign"] ∧
    _extract_operations c4Node ≠ dfsFirstSeen c4Node :=
  ⟨List.Perm.refl _, by decide, by decide, by decide⟩

/-- C4 (amended): every possible output of the operations channel (any
enumeration of the Python set built by _extract_operations) contains each
operation tag at most once and contains exactly the tags of the operation
kinds present in the walked node: presence, not count, is recorded; but the
emission order is an unspecified set enumeration, not the first-seen order
of a depth-first traversal. -/
theorem c4_operations_presence_set (n : PyNode) (l : List String)
    (h : opsOutput n l) :
    l.Nodup ∧ ∀ t : String, t ∈ l ↔ ∃ k ∈ walkKinds n, opTag k = some t := by
  constructor
  · exact h.nodup_iff.mpr (firstSeenAux_nodup (walkKinds n) []).1
  · intro t
    rw [h.mem_iff]
    unfold _extract_operations
    rw [firstSeenAux_mem]
    simp

/-- Witness for C4 at the concrete node, with the canonical enumeration. -/
theorem c4_presence_witness :
    (["operation_assign", "operation_call"] : List String).Nodup ∧
    ∀ t : String, t ∈ (["operation_assign", "operation_call"] : List String) ↔
      ∃ k ∈ walkKinds c4Node, opTag k = some t :=
  c4_operations_presence_set c4Node _ (List.Perm.refl _)

instance pairLeTotal {α : Type} [LinearOrder α] :
    IsTotal (ℕ × α) pairLe := by
  constructor
  intro p q
  rcases lt_trichotomy p.2 q.2 with h | h | h
  · exact Or.inl (Or.inl h)
  · rcases Nat.le_total p.1 q.1 with h1 | h1
    · exact Or.inl (Or.inr ⟨h, h1⟩)
    · exact Or.inr (Or.inr ⟨h.symm, h1⟩)
  · exact Or.inr (Or.inl h)

instance pairLeTrans {α : Type} [LinearOrder α] :
    IsTrans (ℕ × α) pairLe := by
  constructor
  rintro p q r (h1 | ⟨h1, h1'⟩) (h2 | ⟨h2, h2'⟩)
  · exact Or.inl (h1.trans h2)
  · exact Or.inl (h2 ▸ h1)
  · exact Or.inl (h1 ▸ h2)
  · exact Or.inr ⟨h1.trans h2, h1'.trans h2'⟩

/-- argsort is a permutation of the row indices. -/
theorem argsortAsc_perm {α : Type} [LinearOrder α] (sims : List α) :
    (argsortAsc sims).Perm (List.range sims.length) := by
  unfold argsortAsc
  exact ((List.perm_insertionSort pairLe sims.enum).map Prod.fst).trans
    (List.enum_map_fst sims ▸ List.Perm.refl _)

/-- argsort has one entry per row. -/
theorem argsortAsc_length {α : Type} [LinearOrder α] (sims : List α) :
    (argsortAsc sims).length = sims.length :=
  (argsortAsc_perm sims).length_eq.trans (List.length_range _)

/-- argsort contains exactly the row indices. -/
theorem mem_argsortAsc {α : Type} [LinearOrder α] (sims : List α) (i : ℕ) :
    i ∈ argsortAsc sims ↔ i < sims.length := by
  rw [(argsortAsc_perm sims).mem_iff, List.mem_range]

/-- argsort lists each row index once. -/
theorem argsortAsc_nodup {α : Type} [LinearOrder α] (sims : List α) :
    (argsortAsc sims).Nodup :=
  (argsortAsc_perm sims).nodup_iff.mpr (List.nodup_range _)

/-- argsort is ascending: values ascend, with ties in ascending index
order. -/
theorem argsortAsc_pairwise {α : Type} [LinearOrder α] (sims : List α) :
    (argsortAsc sims).Pairwise (fun i j => ∀ x y,
      sims[i]? = some x → sims[j]? = some y →
        x < y ∨ (x = y ∧ i ≤ j)) := by
  unfold argsortAsc
  rw [List.pairwise_map]
  have hs : (List.insertionSort pairLe sims.enum).Pairwise pairLe :=
    List.sorted_insertionSort pairLe sims.enum
  refine hs.imp_of_mem ?_
  intro p q hp hq hpq x y hx hy
  have hpe : sims[p.1]? = some p.2 :=
    List.mem_enum_iff_getElem?.mp ((List.mem_insertionSort pairLe).mp hp)
  have hqe : sims[q.1]? = some q.2 :=
    List.mem_enum_iff_getElem?.mp ((List.mem_insertionSort pairLe).mp hq)
  have hxp : x = p.2 := by rw [hx] at hpe; exact Option.some.inj hpe
  have hyq : y = q.2 := by rw [hy] at hqe; exact Option.some.inj hqe
  subst hxp hyq
  exact hpq

/-- The slice of takeLastPy is a sublist. -/
theorem takeLastPy_sublist {β : Type} (l : List β) (k : ℕ) :
    (takeLastPy l k).Sublist l := by
  unfold takeLastPy
  by_cases hk : k = 0
  · simp [hk]
  · simp only [hk, if_false]
    exact List.drop_sublist _ _

/-- Every selected index is a valid row index. -/
theorem mem_similarIndices {α : Type} [LinearOrder α] (sims : List α)
    (k i : ℕ) (h : i ∈ similarIndices sims k) : i < sims.length := by
  unfold similarIndices at h
  rw [List.mem_reverse] at h
  exact (mem_argsortAsc sims i).mp ((takeLastPy_sublist _ k).mem h)

/-- For a positive top_k the selection has min(top_k, row_count)
entries. -/
theorem similarIndices_length {α : Type} [LinearOrder α] (sims : List α)
    (k : ℕ) (hk : 1 ≤ k) :
    (similarIndices sims k).length = min k sims.length := by
  have hk0 : ¬ k = 0 := by omega
  unfold similarIndices takeLastPy
  simp [hk0, argsortAsc_length]
  omega

/-- On a nonempty row set the selection is nonempty, for every top_k. -/
theorem similarIndices_pos {α : Type} [LinearOrder α] (sims : List α)
    (k : ℕ) (h : sims ≠ []) : 0 < (similarIndices sims k).length := by
  have hn : 0 < sims.length := List.length_pos.mpr h
  unfold similarIndices takeLastPy
  by_cases hk : k = 0
  · simpa [hk, argsortAsc_length] using hn
  · simp [hk, argsortAsc_length]
    omega

/-- The selected indices are distinct. -/
theorem similarIndices_nodup {α : Type} [LinearOrder α] (sims : List α)
    (k : ℕ) : (similarIndices sims k).Nodup := by
  unfold similarIndices
  exact List.nodup_reverse.mpr
    (List.Nodup.sublist (takeLastPy_sublist _ k) (argsortAsc_nodup sims))

/-- The selection is descending: similarities descend, ties in descending
index order. -/
theorem similarIndices_pairwise {α : Type} [LinearOrder α] (sims : List α)
    (k : ℕ) :
    (similarIndices sims k).Pairwise (fun i j => ∀ x y,
      sims[i]? = some x → sims[j]? = some y →
        y < x ∨ (x = y ∧ j < i)) := by
  have hAn := (argsortAsc_pairwise sims).and (argsortAsc_nodup sims)
  have hT := hAn.sublist (takeLastPy_sublist (argsortAsc sims) k)
  unfold similarIndices
  rw [List.pairwise_reverse]
  refine hT.imp ?_
  rintro i j ⟨hrel, hne⟩ x y hjx hiy
  rcases hrel y x hiy hjx with h | ⟨heq, hle⟩
  · exact Or.inl h
  · exact Or.inr ⟨heq.symm, lt_of_le_of_ne hle hne⟩

/-- Every row index left out of the selection ranks at or below every
selected one (strictly below in value, or tied with a smaller index). -/
theorem similarIndices_topk {α : Type} [LinearOrder α] (sims : List α)
    (k j : ℕ) (hj : j < sims.length) (hjR : j ∉ similarIndices sims k) :
    ∀ i ∈ similarIndices sims k, ∀ x y,
      sims[i]? = some x → sims[j]? = some y →
        y < x ∨ (x = y ∧ j < i) := by
  by_cases hk : k = 0
  · exfalso
    apply hjR
    unfold similarIndices takeLastPy
    simp only [hk, if_true, List.mem_reverse]
    exact (mem_argsortAsc sims j).mpr hj
  · intro i hiR x y hx hy
    have hAn := (argsortAsc_pairwise sims).and (argsortAsc_nodup sims)
    have hsplit := (List.take_append_drop
      ((argsortAsc sims).length - k) (argsortAsc sims)).symm
    rw [hsplit] at hAn
    rcases List.pairwise_append.mp hAn with ⟨-, -, hcross⟩
    have hidrop : i ∈ (argsortAsc sims).drop ((argsortAsc sims).length - k) := by
      unfold similarIndices takeLastPy at hiR
      simp only [hk, if_false, List.mem_reverse] at hiR
      exact hiR
    have hjtake : j ∈ (argsortAsc sims).take ((argsortAsc sims).length - k) := by
      have hjA : j ∈ (argsortAsc sims) := (mem_argsortAsc sims j).mpr hj
      rw [hsplit] at hjA
      rcases List.mem_append.mp hjA with h | h
      · exact h
      · exfalso
        apply hjR
        unfold similarIndices takeLastPy
        simp only [hk, if_false, List.mem_reverse]
        exact h
    rcases hcross j hjtake i hidrop with ⟨hrel, hne⟩
    rcases hrel y x hy hx with h | ⟨heq, hle⟩
    · exact Or.inl h
    · exact Or.inr ⟨heq.symm, lt_of_le_of_ne hle hne⟩

/-- A pairwise-descending list relates every element to its last element. -/
theorem pairwise_rel_getLast {β : Type} {rel : β → β → Prop} :
    ∀ (l : List β) (b : β), l.Pairwise rel → l.getLast? = some b →
      ∀ a ∈ l, a = b ∨ rel a b := by
  intro l
  induction l with
  | nil => intro b _ hb; cases hb
  | cons x rest ih =>
    intro b hp hb a ha
    cases rest with
    | nil =>
      have hxb : x = b := by
        simpa using hb
      rcases List.mem_singleton.mp ha with rfl
      exact Or.inl hxb
    | cons y t =>
      have hb' : (y :: t).getLast? = some b := hb
      have hbmem : b ∈ y :: t := List.mem_of_mem_getLast? hb'
      rcases List.pairwise_cons.mp hp with ⟨hx, hrest⟩
      rcases List.mem_cons.mp ha with rfl | ha'
      · exact Or.inr (hx b hbmem)
      · exact ih b hrest hb' a ha'

/-- C3 counterexample: for the similarity row [1, 1] (two fitted rows
equally similar to the query, for instance two identical rows) and k = 2,
the ranking of line 151 returns [1, 0]: the tie is broken in favor of the
later row index, not the earlier one, because the ascending argsort order
[0, 1] is reversed wholesale.  Under the claimed ascending tie-break the
result would have been [0, 1]. -/
theorem c3_ties_favor_later_row :
    similarIndices [(1 : ℕ), 1] 2 = [1, 0] ∧
    similarIndices [(1 : ℕ), 1] 2 ≠ [0, 1] := by decide

/-- C3 (amended): for every similarity row and every k ≥ 1 the ranking
returns min(k, row_count) distinct valid row indices, ordered by descending
similarity with ties broken by descending row index (the later-inserted
function wins, contrary to the claimed ascending tie-break), and every row
left out ranks no higher than any selected row. -/
theorem c3_rank_top_k_descending {α : Type} [LinearOrder α]
    (sims : List α) (k : ℕ) (hk : 1 ≤ k) :
    (similarIndices sims k).length = min k sims.length ∧
    (similarIndices sims k).Nodup ∧
    (∀ i ∈ similarIndices sims k, i < sims.length) ∧
    (similarIndices sims k).Pairwise (fun i j => ∀ x y,
      sims[i]? = some x → sims[j]? = some y →
        y < x ∨ (x = y ∧ j < i)) ∧
    (∀ j, j < sims.length → j ∉ similarIndices sims k →
      ∀ i ∈ similarIndices sims k, ∀ x y,
        sims[i]? = some x → sims[j]? = some y →
          y < x ∨ (x = y ∧ j < i)) :=
  ⟨similarIndices_length sims k hk,
   similarIndices_nodup sims k,
   fun i hi => mem_similarIndices sims k i hi,
   similarIndices_pairwise sims k,
   fun j hj hjR => similarIndices_topk sims k j hj hjR⟩

/-- Witness for C3 at the concrete row [0, 1] with k = 1. -/
theorem c3_rank_witness :
    (similarIndices [(0 : ℕ), 1] 1).length =
      min 1 [(0 : ℕ), 1].length ∧
    (similarIndices [(0 : ℕ), 1] 1).Nodup ∧
    (∀ i ∈ similarIndices [(0 : ℕ), 1] 1, i < [(0 : ℕ), 1].length) ∧
    (similarIndices [(0 : ℕ), 1] 1).Pairwise (fun i j => ∀ x y,
      [(0 : ℕ), 1][i]? = some x → [(0 : ℕ), 1][j]? = some y →
        y < x ∨ (x = y ∧ j < i)) ∧
    (∀ j, j < [(0 : ℕ), 1].length → j ∉ similarIndices [(0 : ℕ), 1] 1 →
      ∀ i ∈ similarIndices [(0 : ℕ), 1] 1, ∀ x y,
        [(0 : ℕ), 1][i]? = some x → [(0 : ℕ), 1][j]? = some y →
          y < x ∨ (x = y ∧ j < i)) :=
  c3_rank_top_k_descending [(0 : ℕ), 1] 1 (by decide)

/-- When every iterated index resolves to a key and a record, the loop of
lines 155-157 completes and leaves the bindings of the last index. -/
theorem loopLast_ok (ids : List String) (db : List (String × FRecord)) :
    ∀ l : List ℕ, l ≠ [] →
      (∀ i ∈ l, ∃ fid r, ids[i]? = some fid ∧ dictGet db fid = some r) →
      ∃ idx fid r, l.getLast? = some idx ∧ ids[idx]? = some fid ∧
        dictGet db fid = some r ∧
        loopLast ids db l = .ok (some (idx, fid, r)) := by
  intro l
  induction l with
  | nil => intro h; exact absurd rfl h
  | cons a rest ih =>
    intro _ hvalid
    rcases hvalid a (List.mem_cons_self _ _) with ⟨fid, r, hfid, hr⟩
    by_cases hrest : rest = []
    · subst hrest
      exact ⟨a, fid, r, by simp, hfid, hr, by simp [loopLast, hfid, hr]⟩
    · have hvr : ∀ i ∈ rest, ∃ fid r, ids[i]? = some fid ∧
          dictGet db fid = some r :=
        fun i hi => hvalid i (List.mem_cons_of_mem _ hi)
      rcases ih hrest hvr with ⟨idx, fid', r', hlast, hfid', hr', hloop⟩
      refine ⟨idx, fid', r', ?_, hfid', hr', ?_⟩
      · rcases List.exists_cons_of_ne_nil hrest with ⟨b, t, rfl⟩
        simpa using hlast
      · simp [loopLast, hfid, hr, hloop]

/-- On a fitted state whose database covers the fitted rows,
find_similar_functions succeeds and returns exactly one match, built from
the last element of the top-k index selection. -/
theorem find_similar_ok {α : Type} [LinearOrder α]
    (sim : List ℕ → List ℕ → α) (s : CodeEmbedder) (target : FunctionDef)
    (k : ℕ) (vocab : List String) (mat : List (List ℕ))
    (hfit : s.is_fitted = some true)
    (hvoc : s.vocabulary = some vocab)
    (hmat : s.embedding_vectors = some mat)
    (hne : mat ≠ [])
    (hdb : mat.length ≤ s.function_database.length) :
    ∃ idx m,
      (similarIndices (simsRow sim vocab mat target) k).getLast? =
        some idx ∧
      idx < mat.length ∧
      find_similar_functions sim s target k = .ok [m] ∧
      (s.function_database.map Prod.fst)[idx]? = some m.function_id ∧
      (simsRow sim vocab mat target)[idx]? = some m.similarity := by
  have hslen : (simsRow sim vocab mat target).length = mat.length := by
    simp [simsRow]
  have hsne : simsRow sim vocab mat target ≠ [] := by
    intro hcon
    apply hne
    have := hslen
    rw [hcon] at this
    exact List.length_eq_zero.mp this.symm
  have hvalid : ∀ i ∈ similarIndices (simsRow sim vocab mat target) k,
      ∃ fid r, (s.function_database.map Prod.fst)[i]? = some fid ∧
        dictGet s.function_database fid = some r := by
    intro i hi
    have hilt : i < (simsRow sim vocab mat target).length :=
      mem_similarIndices _ k i hi
    have hilt' : i < (s.function_database.map Prod.fst).length := by
      rw [List.length_map]
      omega
    have hfid : (s.function_database.map Prod.fst)[i]? =
        some ((s.function_database.map Prod.fst).get ⟨i, hilt'⟩) :=
      (List.getElem?_eq_some_getElem_iff _ _ hilt').mpr trivial
    have hfmem := List.getElem?_mem hfid
    rcases dictGet_mem _ _ hfmem with ⟨r, hr⟩
    exact ⟨_, r, hfid, hr⟩
  have hRne : similarIndices (simsRow sim vocab mat target) k ≠ [] :=
    List.ne_nil_of_length_pos (similarIndices_pos _ k hsne)
  rcases loopLast_ok (s.function_database.map Prod.fst)
      s.function_database _ hRne hvalid with
    ⟨idx, fid, r, hlast, hfid, hr, hloop⟩
  have hidxlt : idx < (simsRow sim vocab mat target).length :=
    mem_similarIndices _ k idx (List.mem_of_mem_getLast? hlast)
  have hsv : (simsRow sim vocab mat target)[idx]? =
      some ((simsRow sim vocab mat target).get ⟨idx, hidxlt⟩) :=
    (List.getElem?_eq_some_getElem_iff _ _ hidxlt).mpr trivial
  refine ⟨idx, ⟨fid, r.name, (simsRow sim vocab mat target).get ⟨idx, hidxlt⟩,
    r.quality_score, r.features⟩, hlast, by omega, ?_, hfid, hsv⟩
  unfold find_similar_functions
  rw [hfit, hvoc, hmat]
  simp only [hloop, hsv]

/-- fit_embeddings on a nonempty database assigns the vocabulary, the
document matrix (one row per record, in insertion order) and the fitted
flag, leaving the database itself untouched. -/
theorem fit_embeddings_fields (s : CodeEmbedder)
    (h : s.function_database ≠ []) :
    fit_embeddings s = { s with
      vocabulary := some (buildVocab
        (s.function_database.map (fun p => p.2.features)))
      embedding_vectors := some
        ((s.function_database.map (fun p => p.2.features)).map
          (toVector (buildVocab
            (s.function_database.map (fun p => p.2.features)))))
      is_fitted := some true } := by
  have h' : s.function_database.isEmpty = false := List.isEmpty_eq_false.mpr h
  simp [fit_embeddings, h']

/-- C6: after a successful fit (nonempty database) followed by one more
add, the fitted matrix still has one row per record of the pre-insertion
snapshot, a query still succeeds, and every returned match is located by a
row index that is valid against the pre-insertion snapshot: the index is
below the fit-time row count and picks the same key in the pre-insertion
database. -/
theorem c6_stale_queries_still_valid {α : Type} [LinearOrder α]
    (sim : List ℕ → List ℕ → α) (s : CodeEmbedder) (f target : FunctionDef)
    (q : ℚ) (k : ℕ) (h : s.function_database ≠ []) :
    ∃ mat : List (List ℕ),
      (fit_embeddings s).embedding_vectors = some mat ∧
      mat.length = s.function_database.length ∧
      ∃ l, find_similar_functions sim
          (add_function_to_database (fit_embeddings s) f q).2 target k =
          .ok l ∧
        ∀ m ∈ l, ∃ i, i < mat.length ∧
          (s.function_database.map Prod.fst)[i]? = some m.function_id := by
  have hfitEq := fit_embeddings_fields s h
  refine ⟨(s.function_database.map (fun p => p.2.features)).map
    (toVector (buildVocab (s.function_database.map (fun p => p.2.features)))),
    by rw [hfitEq], by simp, ?_⟩
  set docs := s.function_database.map (fun p => p.2.features) with hdocs
  set vocab := buildVocab docs with hvocab
  set mat := docs.map (toVector vocab) with hmat0
  have hlen : mat.length = s.function_database.length := by
    simp [hmat0, hdocs]
  have hfit2 : (add_function_to_database (fit_embeddings s) f q).2.is_fitted =
      some true := by
    have : (add_function_to_database (fit_embeddings s) f q).2.is_fitted =
        (fit_embeddings s).is_fitted := rfl
    rw [this, hfitEq]
  have hvoc2 : (add_function_to_database (fit_embeddings s) f q).2.vocabulary =
      some vocab := by
    have : (add_function_to_database (fit_embeddings s) f q).2.vocabulary =
        (fit_embeddings s).vocabulary := rfl
    rw [this, hfitEq]
  have hmat2 :
      (add_function_to_database (fit_embeddings s) f q).2.embedding_vectors =
      some mat := by
    have :
        (add_function_to_database (fit_embeddings s) f q).2.embedding_vectors =
        (fit_embeddings s).embedding_vectors := rfl
    rw [this, hfitEq]
  have hne2 : mat ≠ [] := by
    apply List.ne_nil_of_length_pos
    rw [hlen]
    exact List.length_pos.mpr h
  have hdbfit : (fit_embeddings s).function_database = s.function_database := by
    rw [hfitEq]
  have hdb2 : mat.length ≤
      (add_function_to_database (fit_embeddings s) f q).2.function_database.length := by
    have hinsert :
        (add_function_to_database (fit_embeddings s) f q).2.function_database =
        dictInsert (fit_embeddings s).function_database
          (f.name ++ "_" ++ md5hex8 (joinFeatures (extract_code_features f)))
          ⟨extract_code_features f, q, f.name, f⟩ := rfl
    rw [hinsert, hlen, ← hdbfit]
    exact dictInsert_length_ge _ _ _
  rcases find_similar_ok sim _ target k vocab mat hfit2 hvoc2 hmat2 hne2 hdb2
    with ⟨idx, m, hlast, hidxlt, hok, hfid, hsv⟩
  refine ⟨[m], hok, ?_⟩
  intro m' hm'
  rcases List.mem_singleton.mp hm' with rfl
  refine ⟨idx, hidxlt, ?_⟩
  have hinsert :
      (add_function_to_database (fit_embeddings s) f q).2.function_database =
      dictInsert (fit_embeddings s).function_database
        (f.name ++ "_" ++ md5hex8 (joinFeatures (extract_code_features f)))
        ⟨extract_code_features f, q, f.name, f⟩ := rfl
  rw [hinsert] at hfid
  have hkeys := dictInsert_keys_at (fit_embeddings s).function_database
    (f.name ++ "_" ++ md5hex8 (joinFeatures (extract_code_features f)))
    ⟨extract_code_features f, q, f.name, f⟩ idx (by rw [hdbfit]; omega)
  rw [← hfid, hkeys, hdbfit]

/-- Witness for C6: one record, fit, one more add, query with top_k = 3. -/
theorem c6_stale_witness :
    ∃ mat : List (List ℕ),
      (fit_embeddings preFitState).embedding_vectors = some mat ∧
      mat.length = preFitState.function_database.length ∧
      ∃ l, find_similar_functions dotN
          (add_function_to_database (fit_embeddings preFitState)
            sampleG 1).2 sampleH 3 = .ok l ∧
        ∀ m ∈ l, ∃ i, i < mat.length ∧
          (preFitState.function_database.map Prod.fst)[i]? =
            some m.function_id :=
  c6_stale_queries_still_valid dotN preFitState sampleG sampleH 1 3
    (List.ne_nil_of_length_pos (by decide))

/-- C10: whenever the model has been fitted over a nonempty corpus (and the
database covers the fitted rows, as it always does since the database only
grows), find_similar_functions with top_k ≥ 1 returns exactly one match;
that match is built from the LAST element of the descending top-k index
selection — the lowest-ranked of the min(top_k, row_count) candidates, whose
similarity is less than or equal to that of every selected candidate — not
from the best-ranked one. -/
theorem c10_single_lowest_ranked_match {α : Type} [LinearOrder α]
    (sim : List ℕ → List ℕ → α) (s : CodeEmbedder) (target : FunctionDef)
    (k : ℕ) (vocab : List String) (mat : List (List ℕ))
    (hfit : s.is_fitted = some true)
    (hvoc : s.vocabulary = some vocab)
    (hmat : s.embedding_vectors = some mat)
    (hne : mat ≠ [])
    (hdb : mat.length ≤ s.function_database.length)
    (hk : 1 ≤ k) :
    ∃ idx m,
      find_similar_functions sim s target k = .ok [m] ∧
      (similarIndices (simsRow sim vocab mat target) k).length =
        min k mat.length ∧
      (similarIndices (simsRow sim vocab mat target) k).getLast? =
        some idx ∧
      (s.function_database.map Prod.fst)[idx]? = some m.function_id ∧
      (simsRow sim vocab mat target)[idx]? = some m.similarity ∧
      (∀ i ∈ similarIndices (simsRow sim vocab mat target) k, ∀ x,
        (simsRow sim vocab mat target)[i]? = some x →
          m.similarity ≤ x) := by
  rcases find_similar_ok sim s target k vocab mat hfit hvoc hmat hne hdb with
    ⟨idx, m, hlast, hidxlt, hok, hfid, hsv⟩
  have hslen : (simsRow sim vocab mat target).length = mat.length := by
    simp [simsRow]
  refine ⟨idx, m, hok, ?_, hlast, hfid, hsv, ?_⟩
  · rw [similarIndices_length _ k hk, hslen]
  · intro i hi x hx
    have hpair := similarIndices_pairwise (simsRow sim vocab mat target) k
    rcases pairwise_rel_getLast _ idx hpair hlast i hi with rfl | hrel
    · rw [hx] at hsv
      exact le_of_eq (Option.some.inj hsv).symm
    · rcases hrel x m.similarity hx hsv with hlt | ⟨heq, -⟩
      · exact le_of_lt hlt
      · exact le_of_eq heq.symm

/-- Witness for C10 at the handcrafted one-row fitted state. -/
theorem c10_single_match_witness :
    ∃ idx m,
      find_similar_functions dotN oneRowState sampleH 1 = .ok [m] ∧
      (similarIndices (simsRow dotN ["x"] [[1]] sampleH) 1).length =
        min 1 [[(1 : ℕ)]].length ∧
      (similarIndices (simsRow dotN ["x"] [[1]] sampleH) 1).getLast? =
        some idx ∧
      (oneRowState.function_database.map Prod.fst)[idx]? =
        some m.function_id ∧
      (simsRow dotN ["x"] [[1]] sampleH)[idx]? = some m.similarity ∧
      (∀ i ∈ similarIndices (simsRow dotN ["x"] [[1]] sampleH) 1, ∀ x,
        (simsRow dotN ["x"] [[1]] sampleH)[i]? = some x →
          m.similarity ≤ x) :=
  c10_single_lowest_ranked_match dotN oneRowState sampleH 1 ["x"] [[1]]
    rfl rfl rfl (by decide) (by decide) (by decide)

/-- Every similarity in a successful find_similar_functions result is a
value of the similarity function on the query vector and some matrix
row. -/
theorem find_similar_sim_mem {α : Type} [LinearOrder α]
    (sim : List ℕ → List ℕ → α) (s : CodeEmbedder) (target : FunctionDef)
    (k : ℕ) (l : List (SimMatch α))
    (h : find_similar_functions sim s target k = .ok l) :
    ∀ m ∈ l, ∃ a b, m.similarity = sim a b := by
  intro m hm
  unfold find_similar_functions at h
  split at h
  · cases h
  · rw [← Except.ok.inj h] at hm
    cases hm
  · split at h
    · cases h
    · split at h
      · cases h
      · dsimp only at h
        split at h
        · cases h
        · cases h
        · split at h
          · cases h
          · rename_i sv hsv
            rw [← Except.ok.inj h] at hm
            rcases List.mem_singleton.mp hm with rfl
            have hmem := List.getElem?_mem hsv
            rcases List.mem_map.mp hmem with ⟨row, hrow, hval⟩
            exact ⟨_, row, hval.symm⟩

/-- The self dot product is a sum of squares, hence nonnegative. -/
theorem dotR_self_nonneg (a : List ℝ) : 0 ≤ dotR a a := by
  unfold dotR
  exact Finset.sum_nonneg fun i _ => mul_self_nonneg _

/-- Cauchy-Schwarz for the list dot product: the dot product is bounded in
absolute value by the product of the Euclidean norms. -/
theorem abs_dotR_le (a b : List ℝ) :
    |dotR a b| ≤ Real.sqrt (dotR a a) * Real.sqrt (dotR b b) := by
  have hcs := Finset.sum_mul_sq_le_sq_mul_sq
    (Finset.range (min a.length b.length))
    (fun i => a.getD i 0) (fun i => b.getD i 0)
  have ha : (∑ i ∈ Finset.range (min a.length b.length),
      (a.getD i 0) ^ 2) ≤ dotR a a := by
    unfold dotR
    rw [min_self]
    calc (∑ i ∈ Finset.range (min a.length b.length), (a.getD i 0) ^ 2) ≤
        ∑ i ∈ Finset.range a.length, (a.getD i 0) ^ 2 :=
          Finset.sum_le_sum_of_subset_of_nonneg
            (Finset.range_subset.mpr (min_le_left _ _))
            (fun i _ _ => sq_nonneg _)
      _ = ∑ i ∈ Finset.range a.length, a.getD i 0 * a.getD i 0 :=
          Finset.sum_congr rfl fun i _ => pow_two _
  have hb : (∑ i ∈ Finset.range (min a.length b.length),
      (b.getD i 0) ^ 2) ≤ dotR b b := by
    unfold dotR
    rw [min_self]
    calc (∑ i ∈ Finset.range (min a.length b.length), (b.getD i 0) ^ 2) ≤
        ∑ i ∈ Finset.range b.length, (b.getD i 0) ^ 2 :=
          Finset.sum_le_sum_of_subset_of_nonneg
            (Finset.range_subset.mpr (min_le_right _ _))
            (fun i _ _ => sq_nonneg _)
      _ = ∑ i ∈ Finset.range b.length, b.getD i 0 * b.getD i 0 :=
          Finset.sum_congr rfl fun i _ => pow_two _
  have hsq : (dotR a b) ^ 2 ≤ dotR a a * dotR b b := by
    refine le_trans hcs ?_
    exact mul_le_mul ha hb (Finset.sum_nonneg fun i _ => sq_nonneg _)
      (le_trans (Finset.sum_nonneg fun i _ => sq_nonneg _) ha)
  calc |dotR a b| = Real.sqrt ((dotR a b) ^ 2) := (Real.sqrt_sq_eq_abs _).symm
    _ ≤ Real.sqrt (dotR a a * dotR b b) := Real.sqrt_le_sqrt hsq
    _ = Real.sqrt (dotR a a) * Real.sqrt (dotR b b) :=
        Real.sqrt_mul (dotR_self_nonneg a) _

/-- Cosine similarity always lies in the closed interval from -1 to 1. -/
theorem cosine_similarity_bounds (a b : List ℝ) :
    -1 ≤ cosine_similarity a b ∧ cosine_similarity a b ≤ 1 := by
  unfold cosine_similarity
  have hN0 : 0 ≤ Real.sqrt (dotR a a) * Real.sqrt (dotR b b) :=
    mul_nonneg (Real.sqrt_nonneg _) (Real.sqrt_nonneg _)
  rcases eq_or_lt_of_le hN0 with heq | hpos
  · rw [← heq, div_zero]
    norm_num
  · have habs : |dotR a b / (Real.sqrt (dotR a a) * Real.sqrt (dotR b b))| ≤
        1 := by
      rw [abs_div, abs_of_pos hpos]
      exact (div_le_one hpos).mpr (abs_dotR_le a b)
    exact abs_le.mp habs

/-- A vector with nonzero self dot product has cosine similarity exactly 1
with itself. -/
theorem cosine_similarity_self (v : List ℝ) (h : dotR v v ≠ 0) :
    cosine_similarity v v = 1 := by
  unfold cosine_similarity
  rw [Real.mul_self_sqrt (dotR_self_nonneg v)]
  exact div_self h

/-- C9: with the similarity function instantiated to the real cosine of the
count vectors (the sklearn cosine_similarity of the source, with floats
modelled as reals), every similarity returned by find_similar_functions
lies in the closed interval from -1 to 1; and a query vector identical to a
(nonzero) corpus row vector — as happens when the query has exactly the
features of that corpus record, the projection being a function of the
feature string — has cosine similarity exactly 1 with that row. -/
theorem c9_similarities_bounded_self_one :
    (∀ (s : CodeEmbedder) (target : FunctionDef) (k : ℕ)
        (l : List (SimMatch ℝ)),
      find_similar_functions cosSimN s target k = .ok l →
      ∀ m ∈ l, -1 ≤ m.similarity ∧ m.similarity ≤ 1) ∧
    (∀ v : List ℕ, dotR (natVec v) (natVec v) ≠ 0 → cosSimN v v = 1) := by
  constructor
  · intro s target k l h m hm
    rcases find_similar_sim_mem cosSimN s target k l h m hm with ⟨a, b, hab⟩
    rw [hab]
    exact cosine_similarity_bounds (natVec a) (natVec b)
  · intro v hv
    exact cosine_similarity_self (natVec v) hv

/-- Witness for C9: a query on the one-row fitted state, and the self
similarity of the one-entry count vector. -/
theorem c9_bounds_witness :
    (find_similar_functions cosSimN oneRowState sampleH 1 =
      .ok [⟨"a", "a", cosSimN (toVector ["x"]
        (extract_code_features sampleH)) [1], 1, ["x"]⟩] ∧
      (-1 ≤ cosSimN (toVector ["x"] (extract_code_features sampleH)) [1] ∧
        cosSimN (toVector ["x"] (extract_code_features sampleH)) [1] ≤ 1)) ∧
    (dotR (natVec [1]) (natVec [1]) ≠ 0 ∧ cosSimN [1] [1] = 1) := by
  have hok : find_similar_functions cosSimN oneRowState sampleH 1 =
      .ok [⟨"a", "a", cosSimN (toVector ["x"]
        (extract_code_features sampleH)) [1], 1, ["x"]⟩] := rfl
  have hdot : dotR (natVec [1]) (natVec [1]) ≠ 0 := by
    have : dotR (natVec [1]) (natVec [1]) = 1 := by
      unfold dotR natVec
      simp
    rw [this]
    norm_num
  refine ⟨⟨hok, ?_⟩, hdot, c9_similarities_bounded_self_one.2 [1] hdot⟩
  exact c9_similarities_bounded_self_one.1 oneRowState sampleH 1 _ hok _
    (List.mem_singleton.mpr rfl)
